import Mathlib

/-
Verification development for the timetracker single-page application
(src/src/App.tsx). The application keeps an ordered list of projects
(name plus a duration in seconds) and runs a sequential countdown over
them. All state lives in one React component; we embed it as a record
AppState and embed every user-reachable operation as a function on that
record. Presentation-only state (background color, fullscreen flag,
the text currently typed in the two form fields) is not part of the
record: the form text is passed to the registry operations as arguments,
and the color, sound and fullscreen side effects are modelled as an
emitted list of Event values.

JavaScript numbers are embedded as Int. The duration field of a project
is produced by parseInt on the value of an HTML number input; value
sanitization of such an input means the string is either empty or a
valid decimal numeral, so parseInt never yields NaN on reachable input.
The registry operations return Option: the branch in which parseInt
would yield NaN (unreachable through the sanitized input) is marked by
none rather than given an arbitrary value.

A thrown TypeError from indexing past the end of the projects array
(undefined.duration) is likewise modelled by none, via jsIndex.
-/

namespace TimeTracker

/-- Side effects the component triggers at transition points:
projectChanged stands for setBackgroundColor with a fresh random color,
alarm for playAlarm, and runComplete for resetting the color to white
and leaving fullscreen. -/
inductive Event where
  | projectChanged
  | alarm
  | runComplete
deriving Repr, DecidableEq

/-- A project as in the source: interface Project with id, name and
duration in seconds. -/
structure Project where
  id : String
  name : String
  duration : Int
deriving Repr, DecidableEq

/-- The component state: the five useState cells that drive the
countdown logic (projects, currentProject, isRunning, isPaused,
timeLeft). -/
structure AppState where
  projects : List Project
  currentProject : Int
  isRunning : Bool
  isPaused : Bool
  timeLeft : Int
deriving Repr, DecidableEq

/-- The initial state of the component: empty registry, index -1,
not running, not paused, zero time left. -/
def initState : AppState := ⟨[], -1, false, false, 0⟩

/-- JavaScript array indexing with an Int index: projects[i] is
undefined when i is out of range, and reading .duration from it
throws; that case is none here. -/
def jsIndex (l : List Project) (i : Int) : Option Project :=
  if i < 0 then none else l[i.toNat]?

/-- Value of the longest leading run of decimal digits, accumulator
style, as parseInt reads digits until the first non-digit. -/
def takeDigitsVal : List Char → Nat → Nat
  | [], acc => acc
  | c :: cs, acc => if c.isDigit then takeDigitsVal cs (acc * 10 + (c.toNat - 48)) else acc

/-- Model of the JavaScript parseInt call on the value strings an HTML
number input can hold: an optional leading minus sign followed by the
longest digit prefix. A string from which parseInt would produce NaN
gives none. -/
def jsParseInt (s : String) : Option Int :=
  match s.data with
  | [] => none
  | c :: cs =>
    if c = Char.ofNat 45 then
      match cs with
      | [] => none
      | d :: ds => if d.isDigit then some (-(takeDigitsVal (d :: ds) 0 : Int)) else none
    else if c.isDigit then some ((takeDigitsVal (c :: cs) 0 : Nat) : Int) else none

/-- The addProject handler (App.tsx lines 36-49): returns early when
either form string is empty (the only falsy string), else appends a
project with duration parseInt(minutes) times 60. The freshly generated
random id is passed in as freshId. -/
def addProject (projects : List Project) (newProjectName newProjectDuration : String)
    (freshId : String) : Option (List Project) :=
  if newProjectName = "" ∨ newProjectDuration = "" then some projects
  else (jsParseInt newProjectDuration).map fun m =>
    projects ++ [⟨freshId, newProjectName, m * 60⟩]

/-- The deleteProject handler (App.tsx lines 51-53): keeps every
project whose id differs. -/
def deleteProject (projects : List Project) (id : String) : List Project :=
  projects.filter fun p => p.id ≠ id

/-- The saveEdit handler (App.tsx lines 61-72): returns early when
either form string is empty, else maps over the list replacing name and
duration of each project whose id matches, in place. -/
def saveEdit (projects : List Project) (id : String)
    (newProjectName newProjectDuration : String) : Option (List Project) :=
  if newProjectName = "" ∨ newProjectDuration = "" then some projects
  else (jsParseInt newProjectDuration).map fun m =>
    projects.map fun p =>
      if p.id = id then { p with name := newProjectName, duration := m * 60 } else p

/-- The startTracking handler (App.tsx lines 74-82): no-op on an empty
list, else enters the running view at startIndex with timeLeft set to
the duration read from projects[startIndex]; the random background
color is the projectChanged event. An out-of-range index makes the
duration read throw, which is none. -/
def startTracking (s : AppState) (startIndex : Int) : Option (AppState × List Event) :=
  if s.projects.length = 0 then some (s, [])
  else (jsIndex s.projects startIndex).map fun p =>
    ({ s with isRunning := true, isPaused := false, currentProject := startIndex,
              timeLeft := p.duration }, [Event.projectChanged])

/-- Condition of the expiry branch of the timer effect (App.tsx line
133): isRunning and timeLeft strictly equal to 0. Pause is not
consulted there. -/
def expiryCond (s : AppState) : Bool :=
  s.isRunning && decide (s.timeLeft = 0)

/-- One execution of the expiry branch (App.tsx lines 133-148): play
the alarm, then either advance to the next project (when currentProject
is below length - 1) reading its duration from the array, or finish the
run: leave the running view, clear the index to -1, reset color and
fullscreen (the runComplete event). -/
def expiryStep (s : AppState) : Option (AppState × List Event) :=
  if s.currentProject < (s.projects.length : Int) - 1 then
    (jsIndex s.projects (s.currentProject + 1)).map fun p =>
      ({ s with currentProject := s.currentProject + 1, timeLeft := p.duration },
       [Event.alarm, Event.projectChanged])
  else
    some ({ s with isRunning := false, currentProject := -1 },
          [Event.alarm, Event.runComplete])

/-- The timer effect re-runs after every state change and fires the
expiry branch again while its condition keeps holding (for instance
when the project advanced to has duration 0); settleAux iterates
expiryStep until the condition fails. The fuel argument only bounds the
iteration so the function is total; none on fuel exhaustion. -/
def settleAux : Nat → AppState → Option (AppState × List Event)
  | 0, s => if expiryCond s then none else some (s, [])
  | fuel + 1, s =>
    if expiryCond s then
      (expiryStep s).bind fun r =>
        (settleAux fuel r.1).map fun r2 => (r2.1, r.2 ++ r2.2)
    else some (s, [])

/-- Settling a state: run the expiry branch of the timer effect until
its condition fails. Each firing either advances currentProject or
stops the run, so length + 1 rounds of fuel always suffice. -/
def settle (s : AppState) : Option (AppState × List Event) :=
  settleAux (s.projects.length + 1) s

/-- Composition helper: after a state change committed by an operation,
the timer effect runs; prepend the events of the operation to those of
the settling. -/
def afterEffect (r : AppState × List Event) : Option (AppState × List Event) :=
  (settle r.1).map fun r2 => (r2.1, r.2 ++ r2.2)

/-- Condition under which the timer effect keeps an interval scheduled
(App.tsx line 129): running, not paused, and time left strictly
positive. A tick can only fire while this holds. -/
def tickScheduled (s : AppState) : Bool :=
  s.isRunning && !s.isPaused && decide (0 < s.timeLeft)

/-- One second elapsing: when the interval is scheduled the callback
decrements timeLeft by one and the effect then re-runs (settling any
expiry); otherwise no interval exists and nothing happens. -/
def tick (s : AppState) : Option (AppState × List Event) :=
  if tickScheduled s then
    afterEffect ({ s with timeLeft := s.timeLeft - 1 }, [])
  else some (s, [])

/-- Clock iteration: n seconds elapsing, events concatenated in
order. -/
def runTicks : Nat → AppState → Option (AppState × List Event)
  | 0, s => some (s, [])
  | n + 1, s =>
    (tick s).bind fun r =>
      (runTicks n r.1).map fun r2 => (r2.1, r.2 ++ r2.2)

/-- The backward navigation button handler alone (App.tsx lines
316-327): rendered only in the running view and only when
currentProject is positive; it moves the index down by one and reads
the new duration from the array. The else branch is the button being
absent: nothing runs. -/
def navBackClick (s : AppState) : Option (AppState × List Event) :=
  if s.isRunning && decide (0 < s.currentProject) then
    (jsIndex s.projects (s.currentProject - 1)).map fun p =>
      ({ s with currentProject := s.currentProject - 1, timeLeft := p.duration },
       [Event.projectChanged])
  else some (s, [])

/-- The forward navigation button handler alone (App.tsx lines
328-339): rendered only in the running view and only when
currentProject is below length - 1; it moves the index up by one and
reads the new duration from the array. -/
def navForwardClick (s : AppState) : Option (AppState × List Event) :=
  if s.isRunning && decide (s.currentProject < (s.projects.length : Int) - 1) then
    (jsIndex s.projects (s.currentProject + 1)).map fun p =>
      ({ s with currentProject := s.currentProject + 1, timeLeft := p.duration },
       [Event.projectChanged])
  else some (s, [])

/-- Backward navigation as the user sees it: the click followed by the
re-run of the timer effect. In the no-op case no state changes, so the
effect does not re-run. -/
def navBack (s : AppState) : Option (AppState × List Event) :=
  if s.isRunning && decide (0 < s.currentProject) then
    (jsIndex s.projects (s.currentProject - 1)).bind fun p =>
      afterEffect ({ s with currentProject := s.currentProject - 1, timeLeft := p.duration },
                   [Event.projectChanged])
  else some (s, [])

/-- Forward navigation as the user sees it: the click followed by the
re-run of the timer effect. -/
def navForward (s : AppState) : Option (AppState × List Event) :=
  if s.isRunning && decide (s.currentProject < (s.projects.length : Int) - 1) then
    (jsIndex s.projects (s.currentProject + 1)).bind fun p =>
      afterEffect ({ s with currentProject := s.currentProject + 1, timeLeft := p.duration },
                   [Event.projectChanged])
  else some (s, [])

/-- The togglePause handler (App.tsx lines 84-86) is
setIsPaused(!isPaused); its button exists only in the running view, so
as an operation it is guarded by isRunning. -/
def togglePauseClick (s : AppState) : AppState :=
  if s.isRunning then { s with isPaused := !s.isPaused } else s

/-- Toggling pause as the user sees it: the flip followed by the re-run
of the timer effect. -/
def togglePauseOp (s : AppState) : Option (AppState × List Event) :=
  if s.isRunning then afterEffect ({ s with isPaused := !s.isPaused }, [])
  else some (s, [])

/-- The returnToPlanning handler (App.tsx lines 88-96): leave the
running view, clear pause, clear the index to -1, reset the background
color and leave fullscreen (the runComplete event). timeLeft is left
behind unused. -/
def returnToPlanning (s : AppState) : AppState × List Event :=
  ({ s with isRunning := false, isPaused := false, currentProject := -1 },
   [Event.runComplete])

/-- Exiting a run as the user sees it: the button exists only in the
running view; the click is followed by the re-run of the timer effect
(which does nothing once isRunning is false). -/
def exitOp (s : AppState) : Option (AppState × List Event) :=
  if s.isRunning then afterEffect (returnToPlanning s)
  else some (s, [])

/-- Starting a run as the user sees it: the start buttons exist only in
the planning view; the handler is followed by the re-run of the timer
effect. -/
def startOp (s : AppState) (startIndex : Int) : Option (AppState × List Event) :=
  if s.isRunning then some (s, [])
  else if s.projects.length = 0 then some (s, [])
  else (startTracking s startIndex).bind afterEffect

/-- Adding a project as the user sees it: the form exists only in the
planning view. The timer effect re-runs on the projects change but
does nothing while not running. -/
def addOp (s : AppState) (name dur freshId : String) : Option AppState :=
  if s.isRunning then some s
  else (addProject s.projects name dur freshId).map fun ps => { s with projects := ps }

/-- Deleting a project as the user sees it: planning view only. -/
def deleteOp (s : AppState) (id : String) : AppState :=
  if s.isRunning then s else { s with projects := deleteProject s.projects id }

/-- Editing a project as the user sees it: planning view only. -/
def editOp (s : AppState) (id name dur : String) : Option AppState :=
  if s.isRunning then some s
  else (saveEdit s.projects id name dur).map fun ps => { s with projects := ps }

/-- Duration of the project at position j, read through the same
optional array access, defaulting to 0 away from the list. -/
def durAt (ps : List Project) (j : Nat) : Int :=
  ((ps[j]?).map Project.duration).getD 0

/-- Sum, in seconds, of the durations of the projects from position j
to the end of the list, as natural numbers (the durations in every run
we consider are positive, so truncation is exact). -/
def tailSum (ps : List Project) (j : Nat) : Nat :=
  (((ps.drop j).map Project.duration).map Int.toNat).sum

/-- Canonical active state: given projects, a current index and a time
left, running and unpaused. -/
def runState (ps : List Project) (i t : Int) : AppState :=
  ⟨ps, i, true, false, t⟩

/-- Every project of the list has strictly positive duration. -/
def PosDurations (ps : List Project) : Prop :=
  ∀ p ∈ ps, 0 < p.duration

/-- Index invariant of an active run: while isRunning holds the current
index is within the bounds of the projects list. -/
def ActiveInv (s : AppState) : Prop :=
  s.isRunning = true → 0 ≤ s.currentProject ∧ s.currentProject < (s.projects.length : Int)

/-- States reachable from the initial state through the user-invokable
operations and the clock. Operations returning Option only contribute
their successful results; the start constructor feeds the indices the
planning view can produce (a position of the rendered list). -/
inductive Reachable : AppState → Prop where
  | init : Reachable initState
  | add {s : AppState} {n d i : String} {t : AppState} :
      Reachable s → addOp s n d i = some t → Reachable t
  | del {s : AppState} (id : String) : Reachable s → Reachable (deleteOp s id)
  | edit {s : AppState} {id n d : String} {t : AppState} :
      Reachable s → editOp s id n d = some t → Reachable t
  | start {s : AppState} {t : AppState} {ev : List Event} (i : Nat) :
      Reachable s → i < s.projects.length → startOp s (i : Int) = some (t, ev) → Reachable t
  | pause {s t : AppState} {ev : List Event} :
      Reachable s → togglePauseOp s = some (t, ev) → Reachable t
  | back {s t : AppState} {ev : List Event} :
      Reachable s → navBack s = some (t, ev) → Reachable t
  | fwd {s t : AppState} {ev : List Event} :
      Reachable s → navForward s = some (t, ev) → Reachable t
  | exit {s t : AppState} {ev : List Event} :
      Reachable s → exitOp s = some (t, ev) → Reachable t
  | clock {s t : AppState} {ev : List Event} :
      Reachable s → tick s = some (t, ev) → Reachable t

/-! Helper lemmas about the embedding. -/

theorem jsIndex_some_bounds {l : List Project} {i : Int} {p : Project}
    (h : jsIndex l i = some p) : 0 ≤ i ∧ i < (l.length : Int) := by
  unfold jsIndex at h
  split at h
  · exact absurd h (by simp)
  · have hlt : i.toNat < l.length := by
      rcases List.getElem?_eq_some.mp h with ⟨hl, _⟩
      exact hl
    omega

theorem jsIndex_mem {l : List Project} {i : Int} {p : Project}
    (h : jsIndex l i = some p) : p ∈ l := by
  unfold jsIndex at h
  split at h
  · exact absurd h (by simp)
  · rcases List.getElem?_eq_some.mp h with ⟨hl, he⟩
    exact he ▸ List.getElem_mem hl

theorem jsIndex_eq_durAt {l : List Project} {i : Int}
    (h0 : 0 ≤ i) (h1 : i < (l.length : Int)) :
    ∃ p, jsIndex l i = some p ∧ p.duration = durAt l i.toNat := by
  have hlt : i.toNat < l.length := by omega
  refine ⟨l[i.toNat], ?_, ?_⟩
  · unfold jsIndex
    rw [if_neg (by omega)]
    exact List.getElem?_eq_getElem hlt
  · unfold durAt
    rw [List.getElem?_eq_getElem hlt]
    rfl

theorem settleAux_not {s : AppState} (f : Nat) (h : expiryCond s = false) :
    settleAux f s = some (s, []) := by
  cases f <;> simp [settleAux, h]

theorem settle_not {s : AppState} (h : expiryCond s = false) :
    settle s = some (s, []) :=
  settleAux_not _ h

theorem afterEffect_not {r : AppState × List Event} (h : expiryCond r.1 = false) :
    afterEffect r = some r := by
  simp [afterEffect, settle_not h]

theorem expiryStep_fields {s t : AppState} {ev : List Event}
    (h : expiryStep s = some (t, ev)) :
    t.projects = s.projects ∧ t.isPaused = s.isPaused := by
  unfold expiryStep at h
  split at h
  · cases hj : jsIndex s.projects (s.currentProject + 1) with
    | none => rw [hj] at h; exact absurd h (by simp)
    | some p =>
      rw [hj] at h
      simp only [Option.map_some', Option.some.injEq, Prod.mk.injEq] at h
      rw [← h.1]
      exact ⟨rfl, rfl⟩
  · simp only [Option.some.injEq, Prod.mk.injEq] at h
    rw [← h.1]
    exact ⟨rfl, rfl⟩

theorem settleAux_fields {f : Nat} {s t : AppState} {ev : List Event}
    (h : settleAux f s = some (t, ev)) :
    t.projects = s.projects ∧ t.isPaused = s.isPaused ∧ expiryCond t = false := by
  induction f generalizing s t ev with
  | zero =>
    unfold settleAux at h
    split at h
    · exact absurd h (by simp)
    · next hc =>
      simp only [Option.some.injEq, Prod.mk.injEq] at h
      rw [← h.1]
      exact ⟨rfl, rfl, by simpa using hc⟩
  | succ f ih =>
    unfold settleAux at h
    split at h
    · cases he : expiryStep s with
      | none => rw [he] at h; exact absurd h (by simp)
      | some r =>
        obtain ⟨r1, rev⟩ := r
        rw [he] at h
        simp only [Option.some_bind] at h
        cases hr : settleAux f r1 with
        | none => rw [hr] at h; exact absurd h (by simp)
        | some r2 =>
          obtain ⟨r21, r2ev⟩ := r2
          rw [hr] at h
          simp only [Option.map_some', Option.some.injEq, Prod.mk.injEq] at h
          obtain ⟨h1, -⟩ := h
          obtain ⟨hf1, hf2⟩ := expiryStep_fields he
          obtain ⟨g1, g2, g3⟩ := ih hr
          subst h1
          exact ⟨g1.trans hf1, g2.trans hf2, g3⟩
    · next hc =>
      simp only [Option.some.injEq, Prod.mk.injEq] at h
      rw [← h.1]
      exact ⟨rfl, rfl, by simpa using hc⟩

theorem expiryCond_isRunning {s : AppState} (hc : expiryCond s = true) :
    s.isRunning = true := by
  unfold expiryCond at hc
  exact (Bool.and_eq_true _ _ |>.mp hc).1

theorem expiryStep_inv {s t : AppState} {ev : List Event}
    (h : expiryStep s = some (t, ev)) (hr : s.isRunning = true) (hi : ActiveInv s) :
    ActiveInv t := by
  obtain ⟨h0, h1⟩ := hi hr
  unfold expiryStep at h
  split at h
  · next hc =>
    cases hj : jsIndex s.projects (s.currentProject + 1) with
    | none => rw [hj] at h; exact absurd h (by simp)
    | some p =>
      rw [hj] at h
      simp only [Option.map_some', Option.some.injEq, Prod.mk.injEq] at h
      rw [← h.1]
      intro _
      dsimp only
      omega
  · simp only [Option.some.injEq, Prod.mk.injEq] at h
    rw [← h.1]
    intro hx
    exact Bool.noConfusion hx

theorem settleAux_inv {f : Nat} {s t : AppState} {ev : List Event}
    (h : settleAux f s = some (t, ev)) (hi : ActiveInv s) : ActiveInv t := by
  induction f generalizing s t ev with
  | zero =>
    unfold settleAux at h
    split at h
    · exact absurd h (by simp)
    · simp only [Option.some.injEq, Prod.mk.injEq] at h
      rw [← h.1]; exact hi
  | succ f ih =>
    unfold settleAux at h
    split at h
    · next hc =>
      cases he : expiryStep s with
      | none => rw [he] at h; exact absurd h (by simp)
      | some r =>
        obtain ⟨r1, rev⟩ := r
        rw [he] at h
        simp only [Option.some_bind] at h
        cases hr : settleAux f r1 with
        | none => rw [hr] at h; exact absurd h (by simp)
        | some r2 =>
          obtain ⟨r21, r2ev⟩ := r2
          rw [hr] at h
          simp only [Option.map_some', Option.some.injEq, Prod.mk.injEq] at h
          obtain ⟨h1, -⟩ := h
          subst h1
          exact ih hr (expiryStep_inv he (expiryCond_isRunning hc) hi)
    · simp only [Option.some.injEq, Prod.mk.injEq] at h
      rw [← h.1]; exact hi

theorem afterEffect_decompose {r : AppState × List Event} {t : AppState} {ev : List Event}
    (h : afterEffect r = some (t, ev)) :
    ∃ ev2, settle r.1 = some (t, ev2) ∧ ev = r.2 ++ ev2 := by
  unfold afterEffect at h
  cases hs : settle r.1 with
  | none => rw [hs] at h; exact absurd h (by simp)
  | some r2 =>
    obtain ⟨r21, r2ev⟩ := r2
    rw [hs] at h
    simp only [Option.map_some', Option.some.injEq, Prod.mk.injEq] at h
    obtain ⟨h1, h2⟩ := h
    exact ⟨r2ev, by rw [h1], h2.symm⟩

theorem afterEffect_inv {r : AppState × List Event} {t : AppState} {ev : List Event}
    (h : afterEffect r = some (t, ev)) (hi : ActiveInv r.1) : ActiveInv t := by
  obtain ⟨ev2, hs, -⟩ := afterEffect_decompose h
  exact settleAux_inv hs hi

theorem afterEffect_fields {r : AppState × List Event} {t : AppState} {ev : List Event}
    (h : afterEffect r = some (t, ev)) :
    t.projects = r.1.projects ∧ t.isPaused = r.1.isPaused ∧ expiryCond t = false := by
  obtain ⟨ev2, hs, -⟩ := afterEffect_decompose h
  exact settleAux_fields hs

theorem startOp_inv {s t : AppState} {ev : List Event} {i : Int}
    (h : startOp s i = some (t, ev)) (hi : ActiveInv s) : ActiveInv t := by
  unfold startOp at h
  split at h
  · simp only [Option.some.injEq, Prod.mk.injEq] at h
    rw [← h.1]; exact hi
  split at h
  · simp only [Option.some.injEq, Prod.mk.injEq] at h
    rw [← h.1]; exact hi
  · next hlen =>
    unfold startTracking at h
    rw [if_neg hlen] at h
    cases hj : jsIndex s.projects i with
    | none => rw [hj] at h; exact absurd h (by simp)
    | some p =>
      rw [hj] at h
      simp only [Option.map_some', Option.some_bind] at h
      exact afterEffect_inv h (fun _ => jsIndex_some_bounds hj)

theorem tick_inv {s t : AppState} {ev : List Event}
    (h : tick s = some (t, ev)) (hi : ActiveInv s) : ActiveInv t := by
  unfold tick at h
  split at h
  · exact afterEffect_inv h hi
  · simp only [Option.some.injEq, Prod.mk.injEq] at h
    rw [← h.1]; exact hi

theorem togglePauseOp_inv {s t : AppState} {ev : List Event}
    (h : togglePauseOp s = some (t, ev)) (hi : ActiveInv s) : ActiveInv t := by
  unfold togglePauseOp at h
  split at h
  · exact afterEffect_inv h hi
  · simp only [Option.some.injEq, Prod.mk.injEq] at h
    rw [← h.1]; exact hi

theorem navBack_inv {s t : AppState} {ev : List Event}
    (h : navBack s = some (t, ev)) (hi : ActiveInv s) : ActiveInv t := by
  unfold navBack at h
  split at h
  · cases hj : jsIndex s.projects (s.currentProject - 1) with
    | none => rw [hj] at h; exact absurd h (by simp)
    | some p =>
      rw [hj] at h
      simp only [Option.some_bind] at h
      exact afterEffect_inv h (fun _ => jsIndex_some_bounds hj)
  · simp only [Option.some.injEq, Prod.mk.injEq] at h
    rw [← h.1]; exact hi

theorem navForward_inv {s t : AppState} {ev : List Event}
    (h : navForward s = some (t, ev)) (hi : ActiveInv s) : ActiveInv t := by
  unfold navForward at h
  split at h
  · cases hj : jsIndex s.projects (s.currentProject + 1) with
    | none => rw [hj] at h; exact absurd h (by simp)
    | some p =>
      rw [hj] at h
      simp only [Option.some_bind] at h
      exact afterEffect_inv h (fun _ => jsIndex_some_bounds hj)
  · simp only [Option.some.injEq, Prod.mk.injEq] at h
    rw [← h.1]; exact hi

theorem exitOp_inv {s t : AppState} {ev : List Event}
    (h : exitOp s = some (t, ev)) (hi : ActiveInv s) : ActiveInv t := by
  unfold exitOp at h
  split at h
  · exact afterEffect_inv h (fun hx => Bool.noConfusion hx)
  · simp only [Option.some.injEq, Prod.mk.injEq] at h
    rw [← h.1]; exact hi

theorem addOp_inv {s t : AppState} {n d i : String}
    (h : addOp s n d i = some t) (hi : ActiveInv s) : ActiveInv t := by
  unfold addOp at h
  split at h
  · simp only [Option.some.injEq] at h
    rw [← h]; exact hi
  · next hns =>
    cases ha : addProject s.projects n d i with
    | none => rw [ha] at h; exact absurd h (by simp)
    | some ps =>
      rw [ha] at h
      simp only [Option.map_some', Option.some.injEq] at h
      rw [← h]
      intro hx
      exact absurd hx hns

theorem editOp_inv {s t : AppState} {id n d : String}
    (h : editOp s id n d = some t) (hi : ActiveInv s) : ActiveInv t := by
  unfold editOp at h
  split at h
  · simp only [Option.some.injEq] at h
    rw [← h]; exact hi
  · next hns =>
    cases ha : saveEdit s.projects id n d with
    | none => rw [ha] at h; exact absurd h (by simp)
    | some ps =>
      rw [ha] at h
      simp only [Option.map_some', Option.some.injEq] at h
      rw [← h]
      intro hx
      exact absurd hx hns

theorem deleteOp_inv {s : AppState} {id : String} (hi : ActiveInv s) :
    ActiveInv (deleteOp s id) := by
  unfold deleteOp
  split
  · exact hi
  · next hns =>
    intro hx
    exact absurd hx hns

theorem reachable_inv {s : AppState} (h : Reachable s) : ActiveInv s := by
  induction h with
  | init => intro hx; exact Bool.noConfusion hx
  | add _ he ih => exact addOp_inv he ih
  | del id _ ih => exact deleteOp_inv ih
  | edit _ he ih => exact editOp_inv he ih
  | start i _ _ he ih => exact startOp_inv he ih
  | pause _ he ih => exact togglePauseOp_inv he ih
  | back _ he ih => exact navBack_inv he ih
  | fwd _ he ih => exact navForward_inv he ih
  | exit _ he ih => exact exitOp_inv he ih
  | clock _ he ih => exact tick_inv he ih

/-- Claim C3: for every reachable state in which a run is active the
current index lies in the bounds of the sequence, and every engine
operation (start, tick, togglePause, navigate in both directions, exit)
preserves this invariant. -/
theorem claim_C3 :
    (∀ s : AppState, Reachable s → s.isRunning = true →
      0 ≤ s.currentProject ∧ s.currentProject < (s.projects.length : Int)) ∧
    (∀ (s t : AppState) (ev : List Event) (i : Int), ActiveInv s →
      (startOp s i = some (t, ev) → ActiveInv t) ∧
      (tick s = some (t, ev) → ActiveInv t) ∧
      (togglePauseOp s = some (t, ev) → ActiveInv t) ∧
      (navBack s = some (t, ev) → ActiveInv t) ∧
      (navForward s = some (t, ev) → ActiveInv t) ∧
      (exitOp s = some (t, ev) → ActiveInv t)) :=
  ⟨fun _ h => reachable_inv h,
   fun _ _ _ _ hi =>
    ⟨fun h => startOp_inv h hi, fun h => tick_inv h hi, fun h => togglePauseOp_inv h hi,
     fun h => navBack_inv h hi, fun h => navForward_inv h hi, fun h => exitOp_inv h hi⟩⟩

/-- Witness for C3 at a concrete reachable running state: add one
project, start it, and read off the index bounds. -/
theorem claim_C3_witness :
    0 ≤ (runState [⟨"a", "A", 60⟩] 0 60).currentProject ∧
    (runState [⟨"a", "A", 60⟩] 0 60).currentProject <
      ((runState [⟨"a", "A", 60⟩] 0 60).projects.length : Int) :=
  have h1 : addOp initState "A" "1" "a" =
      some ⟨[⟨"a", "A", 60⟩], -1, false, false, 0⟩ := by decide
  have h2 : Reachable (⟨[⟨"a", "A", 60⟩], -1, false, false, 0⟩ : AppState) :=
    Reachable.add Reachable.init h1
  have h3 : startOp (⟨[⟨"a", "A", 60⟩], -1, false, false, 0⟩ : AppState) ((0 : Nat) : Int) =
      some (runState [⟨"a", "A", 60⟩] 0 60, [Event.projectChanged]) := by decide
  claim_C3.1 (runState [⟨"a", "A", 60⟩] 0 60)
    (Reachable.start 0 h2 (by decide) h3) rfl

/-- Claim C6: togglePause flips between Running and Paused when a run
is active and leaves the state unchanged when idle (its button only
exists in the running view). -/
theorem claim_C6 (s : AppState) :
    (s.isRunning = true → togglePauseClick s = { s with isPaused := !s.isPaused }) ∧
    (s.isRunning = false → togglePauseClick s = s) := by
  constructor
  · intro h; unfold togglePauseClick; rw [if_pos h]
  · intro h; unfold togglePauseClick; rw [if_neg (by simp [h])]

/-- Witness for C6 at a concrete running state. -/
theorem claim_C6_witness :
    togglePauseClick (runState [⟨"a", "A", 60⟩] 0 60) =
      { runState [⟨"a", "A", 60⟩] 0 60 with isPaused := true } :=
  (claim_C6 (runState [⟨"a", "A", 60⟩] 0 60)).1 rfl

/-- Claim C9: from every active state, exit returns the engine to Idle
(not running, index cleared, pause cleared), emits exactly the
run-complete effect, and never the alarm. The remaining time is simply
left behind unused. -/
theorem claim_C9 (s : AppState) (h : s.isRunning = true) :
    ∃ ev, exitOp s =
        some ({ s with isRunning := false, isPaused := false, currentProject := -1 }, ev) ∧
      ev = [Event.runComplete] ∧ Event.alarm ∉ ev := by
  refine ⟨[Event.runComplete], ?_, rfl, by simp⟩
  unfold exitOp
  rw [if_pos h]
  exact afterEffect_not (by rfl)

/-- Witness for C9 at a concrete running state. -/
theorem claim_C9_witness :
    ∃ ev, exitOp (runState [⟨"a", "A", 60⟩] 0 60) =
        some (⟨[⟨"a", "A", 60⟩], -1, false, false, 60⟩, ev) ∧
      ev = [Event.runComplete] ∧ Event.alarm ∉ ev :=
  claim_C9 (runState [⟨"a", "A", 60⟩] 0 60) rfl

/-- Claim C10: startTracking guards only against an empty list; with
the index inside the bounds the duration read succeeds, while for a
non-empty list and an index outside the bounds the read throws (none),
so no guarantee exists there. -/
theorem claim_C10 :
    (∀ (s : AppState) (i : Int), s.projects = [] → startTracking s i = some (s, [])) ∧
    (∀ (s : AppState) (i : Int), 0 ≤ i → i < (s.projects.length : Int) →
      (startTracking s i).isSome = true) ∧
    (∃ (s : AppState) (i : Int), s.projects ≠ [] ∧ (s.projects.length : Int) ≤ i ∧
      startTracking s i = none) := by
  refine ⟨?_, ?_, ?_⟩
  · intro s i h
    unfold startTracking
    rw [if_pos (by rw [h]; rfl)]
  · intro s i h0 h1
    obtain ⟨p, hp, -⟩ := jsIndex_eq_durAt h0 h1
    unfold startTracking
    split
    · rfl
    · rw [hp]; rfl
  · exact ⟨⟨[⟨"a", "A", 60⟩], -1, false, false, 0⟩, 5, by simp, by decide, by decide⟩

/-- Witness for C10: the in-bounds read at a concrete non-empty state. -/
theorem claim_C10_witness :
    (startTracking (⟨[⟨"a", "A", 60⟩], -1, false, false, 0⟩ : AppState) 0).isSome = true :=
  claim_C10.2.1 ⟨[⟨"a", "A", 60⟩], -1, false, false, 0⟩ 0 (by decide) (by decide)

/-- Counterexample to claim C2 as stated: the handler validates only
that the form strings are non-empty, so adding name X with the duration
entry 0 appends a project with duration 0 instead of leaving the
registry unchanged. -/
theorem claim_C2_counterexample :
    addProject [] "X" "0" "id0" ≠ some [] := by decide

/-- Claim C2 amended: add is a no-op exactly when the name or the
duration entry is empty; positivity of the duration is not validated.
For any non-empty entries whose duration parses to m, add appends a
single project with duration m times 60 seconds, preserving insertion
order. -/
theorem claim_C2_amended (ps : List Project) (name dur freshId : String) :
    (name = "" ∨ dur = "" → addProject ps name dur freshId = some ps) ∧
    (∀ m : Int, name ≠ "" → dur ≠ "" → jsParseInt dur = some m →
      addProject ps name dur freshId = some (ps ++ [⟨freshId, name, m * 60⟩])) := by
  constructor
  · intro h
    unfold addProject
    rw [if_pos h]
  · intro m h1 h2 hp
    unfold addProject
    rw [if_neg (by tauto), hp]
    rfl

/-- Witness for the amended C2: the empty-name scenario is a no-op and
a valid add appends the converted project. -/
theorem claim_C2_witness :
    addProject [] "" "10" "i" = some [] ∧
    addProject [] "X" "10" "i" = some [⟨"i", "X", 600⟩] :=
  ⟨(claim_C2_amended [] "" "10" "i").1 (Or.inl rfl),
   (claim_C2_amended [] "X" "10" "i").2 10 (by decide) (by decide) (by decide)⟩

/-- Counterexample to claim C8 as stated: editing with the duration
entry 0 should be a validation no-op by the claim, but the handler only
checks non-emptiness and rewrites the duration to 0. -/
theorem claim_C8_counterexample :
    saveEdit [⟨"a", "X", 600⟩] "a" "X" "0" ≠ some [⟨"a", "X", 600⟩] := by decide

/-- Claim C8 amended: edit is a no-op when a form string is empty
(positivity is not validated) or when no project has the given id;
otherwise, with distinct ids, the matching project keeps its position
and id and receives the new name and duration, and every other position
is unchanged. -/
theorem claim_C8_amended (ps : List Project) (id name dur : String) :
    (name = "" ∨ dur = "" → saveEdit ps id name dur = some ps) ∧
    (∀ m : Int, name ≠ "" → dur ≠ "" → jsParseInt dur = some m →
      ((∀ p ∈ ps, p.id ≠ id) → saveEdit ps id name dur = some ps) ∧
      (∀ (k : Nat) (p : Project), (ps.map Project.id).Nodup → ps[k]? = some p → p.id = id →
        ∃ qs, saveEdit ps id name dur = some qs ∧
          qs[k]? = some ⟨p.id, name, m * 60⟩ ∧
          ∀ j : Nat, j ≠ k → qs[j]? = ps[j]?)) := by
  constructor
  · intro h
    unfold saveEdit
    rw [if_pos h]
  · intro m h1 h2 hp
    have hno : ¬(name = "" ∨ dur = "") := by tauto
    constructor
    · intro habs
      unfold saveEdit
      rw [if_neg hno, hp]
      simp only [Option.map_some', Option.some.injEq]
      rw [List.map_congr_left (fun p hmem => if_neg (habs p hmem))]
      simp
    · intro k p hnd hk hid
      refine ⟨ps.map fun q =>
        if q.id = id then { q with name := name, duration := m * 60 } else q, ?_, ?_, ?_⟩
      · unfold saveEdit
        rw [if_neg hno, hp]
        rfl
      · rw [List.getElem?_map, hk]
        simp only [Option.map_some', Option.some.injEq]
        rw [if_pos hid]
      · intro j hj
        rw [List.getElem?_map]
        cases hq : ps[j]? with
        | none => rfl
        | some q =>
          simp only [Option.map_some', Option.some.injEq]
          rw [if_neg ?_]
          intro hqid
          apply hj
          obtain ⟨hjlt, -⟩ := List.getElem?_eq_some.mp hq
          apply List.getElem?_inj (by simpa using hjlt) hnd
          rw [List.getElem?_map, List.getElem?_map, hq, hk]
          simp [hqid, hid]

/-- Witness for the amended C8: a concrete successful edit keeps
position and id while updating name and duration. -/
theorem claim_C8_witness :
    ∃ qs, saveEdit [⟨"a", "Old", 600⟩] "a" "New" "2" = some qs ∧
      qs[0]? = some ⟨"a", "New", 120⟩ ∧
      ∀ j : Nat, j ≠ 0 → qs[j]? = ([⟨"a", "Old", 600⟩] : List Project)[j]? :=
  ((claim_C8_amended [⟨"a", "Old", 600⟩] "a" "New" "2").2 2 (by decide) (by decide)
    (by decide)).2 0 ⟨"a", "Old", 600⟩ (by decide) (by decide) rfl

/-- Claim C4: in an active run, navigating backward at index 0 and
forward at the last index are no-ops (the buttons are not rendered);
every in-bounds move shifts the index by one, resets the remaining time
to the duration of the new current project, and emits exactly the
project-changed signal. -/
theorem claim_C4 (s : AppState) (h : s.isRunning = true)
    (h0 : 0 ≤ s.currentProject) (h1 : s.currentProject < (s.projects.length : Int)) :
    (s.currentProject = 0 → navBackClick s = some (s, [])) ∧
    (s.currentProject = (s.projects.length : Int) - 1 → navForwardClick s = some (s, [])) ∧
    (0 < s.currentProject →
      navBackClick s = some ({ s with currentProject := s.currentProject - 1, timeLeft := durAt s.projects (s.currentProject - 1).toNat }, [Event.projectChanged])) ∧
    (s.currentProject < (s.projects.length : Int) - 1 →
      navForwardClick s = some ({ s with currentProject := s.currentProject + 1, timeLeft := durAt s.projects (s.currentProject + 1).toNat }, [Event.projectChanged])) := by
  refine ⟨?_, ?_, ?_, ?_⟩
  · intro hz
    unfold navBackClick
    rw [if_neg (by simp [hz])]
  · intro hl
    unfold navForwardClick
    rw [if_neg (by simp [hl])]
  · intro hgt
    obtain ⟨p, hp, hd⟩ := jsIndex_eq_durAt (l := s.projects) (i := s.currentProject - 1)
      (by omega) (by omega)
    unfold navBackClick
    rw [if_pos (by simp [h, hgt]), hp]
    simp only [Option.map_some', Option.some.injEq]
    rw [hd]
  · intro hlt
    obtain ⟨p, hp, hd⟩ := jsIndex_eq_durAt (l := s.projects) (i := s.currentProject + 1)
      (by omega) (by omega)
    unfold navForwardClick
    rw [if_pos (by simp [h, hlt]), hp]
    simp only [Option.map_some', Option.some.injEq]
    rw [hd]

/-- Witness for C4: a concrete backward move from index 1 of a
two-project run. -/
theorem claim_C4_witness :
    navBackClick (runState [⟨"a", "Draft", 60⟩, ⟨"b", "Review", 30⟩] 1 30) =
      some (⟨[⟨"a", "Draft", 60⟩, ⟨"b", "Review", 30⟩], 0, true, false, 60⟩,
        [Event.projectChanged]) :=
  (claim_C4 (runState [⟨"a", "Draft", 60⟩, ⟨"b", "Review", 30⟩] 1 30) rfl
    (by decide) (by decide)).2.2.1 (by decide)

theorem tick_of_paused {s : AppState} (h : s.isPaused = true) : tick s = some (s, []) := by
  unfold tick
  rw [if_neg ?_]
  unfold tickScheduled
  simp [h]

theorem runTicks_of_paused {s : AppState} (h : s.isPaused = true) (k : Nat) :
    runTicks k s = some (s, []) := by
  induction k with
  | zero => rfl
  | succ k ih =>
    simp only [runTicks]
    rw [tick_of_paused h]
    simp only [Option.some_bind]
    rw [ih]
    rfl

/-- Claim C7: once togglePause moves an active unpaused run to Paused,
any number of subsequent ticks leaves the state, and in particular the
remaining time, unchanged: no interval is scheduled while paused. -/
theorem claim_C7 (s t : AppState) (ev : List Event) (hr : s.isRunning = true)
    (hp : s.isPaused = false) (h : togglePauseOp s = some (t, ev)) :
    t.isPaused = true ∧ ∀ k : Nat, runTicks k t = some (t, []) := by
  have hpau : t.isPaused = true := by
    unfold togglePauseOp at h
    rw [if_pos hr] at h
    have h2 := (afterEffect_fields h).2.1
    simpa [hp] using h2
  exact ⟨hpau, fun k => runTicks_of_paused hpau k⟩

/-- Witness for C7: pausing a concrete running state freezes it under
the clock. -/
theorem claim_C7_witness :
    (⟨[⟨"a", "A", 60⟩], 0, true, true, 60⟩ : AppState).isPaused = true ∧
    ∀ k : Nat, runTicks k ⟨[⟨"a", "A", 60⟩], 0, true, true, 60⟩ =
      some (⟨[⟨"a", "A", 60⟩], 0, true, true, 60⟩, []) :=
  claim_C7 (runState [⟨"a", "A", 60⟩] 0 60) ⟨[⟨"a", "A", 60⟩], 0, true, true, 60⟩ []
    rfl rfl (by decide)

theorem afterEffect_of_not {r : AppState × List Event} {t : AppState} {ev : List Event}
    (hc : expiryCond r.1 = false) (h : afterEffect r = some (t, ev)) :
    t = r.1 ∧ ev = r.2 := by
  rw [afterEffect_not hc] at h
  simp only [Option.some.injEq] at h
  exact ⟨(congrArg Prod.fst h).symm, (congrArg Prod.snd h).symm⟩

/-- Claim C5: on a sequence whose projects all have positive duration,
navigation never emits the alarm; only a tick that brings the remaining
time from 1 to 0 does. -/
theorem claim_C5 (s t : AppState) (ev : List Event)
    (hpos : PosDurations s.projects) :
    (navBack s = some (t, ev) → Event.alarm ∉ ev) ∧
    (navForward s = some (t, ev) → Event.alarm ∉ ev) ∧
    (tick s = some (t, ev) → Event.alarm ∈ ev → s.timeLeft = 1) := by
  refine ⟨?_, ?_, ?_⟩
  · intro h
    unfold navBack at h
    split at h
    · cases hj : jsIndex s.projects (s.currentProject - 1) with
      | none => rw [hj] at h; exact absurd h (by simp)
      | some p =>
        rw [hj] at h
        simp only [Option.some_bind] at h
        have hd := hpos p (jsIndex_mem hj)
        obtain ⟨-, hev⟩ := afterEffect_of_not (by simp [expiryCond]; omega) h
        rw [hev]
        simp
    · simp only [Option.some.injEq, Prod.mk.injEq] at h
      rw [← h.2]
      simp
  · intro h
    unfold navForward at h
    split at h
    · cases hj : jsIndex s.projects (s.currentProject + 1) with
      | none => rw [hj] at h; exact absurd h (by simp)
      | some p =>
        rw [hj] at h
        simp only [Option.some_bind] at h
        have hd := hpos p (jsIndex_mem hj)
        obtain ⟨-, hev⟩ := afterEffect_of_not (by simp [expiryCond]; omega) h
        rw [hev]
        simp
    · simp only [Option.some.injEq, Prod.mk.injEq] at h
      rw [← h.2]
      simp
  · intro h hal
    unfold tick at h
    split at h
    · by_cases hc : expiryCond { s with timeLeft := s.timeLeft - 1 } = true
      · have : s.timeLeft - 1 = 0 := by
          unfold expiryCond at hc
          have := ((Bool.and_eq_true _ _).mp hc).2
          simpa using this
        omega
      · obtain ⟨-, hev⟩ := afterEffect_of_not (by simpa using hc) h
        rw [hev] at hal
        simp at hal
    · simp only [Option.some.injEq, Prod.mk.injEq] at h
      rw [← h.2] at hal
      simp at hal

/-- Witness for C5: a concrete backward navigation emits only the
project-changed signal, never the alarm. -/
theorem claim_C5_witness : Event.alarm ∉ [Event.projectChanged] :=
  (claim_C5 (runState [⟨"a", "Draft", 60⟩, ⟨"b", "Review", 30⟩] 1 30)
    ⟨[⟨"a", "Draft", 60⟩, ⟨"b", "Review", 30⟩], 0, true, false, 60⟩
    [Event.projectChanged]
    (by unfold PosDurations; decide)).1 (by decide)

theorem runTicks_add (a b : Nat) (s : AppState) :
    runTicks (a + b) s = (runTicks a s).bind fun r =>
      (runTicks b r.1).map fun r2 => (r2.1, r.2 ++ r2.2) := by
  induction a generalizing s with
  | zero =>
    rw [Nat.zero_add]
    simp only [runTicks, Option.some_bind]
    cases hb : runTicks b s with
    | none => rfl
    | some r2 => simp
  | succ a ih =>
    rw [Nat.succ_add]
    simp only [runTicks]
    cases ht : tick s with
    | none => rfl
    | some r =>
      simp only [Option.some_bind]
      rw [ih r.1]
      cases ha : runTicks a r.1 with
      | none => rfl
      | some r2 =>
        simp only [Option.some_bind, Option.map_some']
        cases hb : runTicks b r2.1 with
        | none => rfl
        | some r3 => simp

theorem durAt_pos {ps : List Project} (hpos : PosDurations ps) {j : Nat}
    (hj : j < ps.length) : 0 < durAt ps j := by
  unfold durAt
  rw [List.getElem?_eq_getElem hj]
  simpa using hpos _ (List.getElem_mem hj)

theorem runTicks_countdown (ps : List Project) (i : Int) :
    ∀ (k : Nat) (t : Int), (k : Int) < t →
      runTicks k (runState ps i t) = some (runState ps i (t - (k : Int)), []) := by
  intro k
  induction k with
  | zero =>
    intro t ht
    simp [runTicks]
  | succ k ih =>
    intro t ht
    have hc : (k : Int) < t - 1 := by push_cast at ht; omega
    have hs : tickScheduled (runState ps i t) = true := by
      unfold tickScheduled runState
      simp
      omega
    have htick : tick (runState ps i t) = some (runState ps i (t - 1), []) := by
      unfold tick
      rw [if_pos hs]
      exact afterEffect_not (by unfold expiryCond runState; simp; omega)
    simp only [runTicks]
    rw [htick]
    simp only [Option.some_bind]
    rw [ih (t - 1) hc]
    simp only [Option.map_some']
    have harith : t - 1 - (k : Int) = t - ((k + 1 : Nat) : Int) := by push_cast; ring
    rw [harith]
    rfl

theorem tick_expire_advance (ps : List Project) (i : Int)
    (h0 : 0 ≤ i) (h1 : i < (ps.length : Int) - 1)
    (hd : durAt ps (i + 1).toNat ≠ 0) :
    tick (runState ps i 1) = some (runState ps (i + 1) (durAt ps (i + 1).toNat),
      [Event.alarm, Event.projectChanged]) := by
  have hs : tickScheduled (runState ps i 1) = true := by
    unfold tickScheduled runState
    simp
  obtain ⟨p, hp, hpd⟩ := jsIndex_eq_durAt (l := ps) (i := i + 1) (by omega) (by omega)
  have hexp : expiryStep (runState ps i 0) = some (runState ps (i + 1) p.duration,
      [Event.alarm, Event.projectChanged]) := by
    simp only [expiryStep, runState]
    rw [if_pos h1, hp]
    rfl
  unfold tick
  rw [if_pos hs]
  show afterEffect (runState ps i 0, []) = _
  unfold afterEffect
  show (settleAux (ps.length + 1) (runState ps i 0)).map _ = _
  simp only [settleAux]
  rw [if_pos (by unfold expiryCond runState; simp), hexp]
  simp only [Option.some_bind]
  rw [settleAux_not _ (by unfold expiryCond runState; simp [hpd]; omega)]
  simp only [Option.map_some']
  rw [hpd]
  rfl

theorem tick_expire_finish (ps : List Project) (i : Int)
    (hge : (ps.length : Int) - 1 ≤ i) :
    tick (runState ps i 1) =
      some (⟨ps, -1, false, false, 0⟩, [Event.alarm, Event.runComplete]) := by
  have hs : tickScheduled (runState ps i 1) = true := by
    unfold tickScheduled runState
    simp
  have hexp : expiryStep (runState ps i 0) =
      some (⟨ps, -1, false, false, 0⟩, [Event.alarm, Event.runComplete]) := by
    simp only [expiryStep, runState]
    rw [if_neg (by omega)]
  unfold tick
  rw [if_pos hs]
  show afterEffect (runState ps i 0, []) = _
  unfold afterEffect
  show (settleAux (ps.length + 1) (runState ps i 0)).map _ = _
  simp only [settleAux]
  rw [if_pos (by unfold expiryCond runState; simp), hexp]
  simp only [Option.some_bind]
  rw [settleAux_not _ (by rfl)]
  simp only [Option.map_some']
  rfl

theorem tailSum_cons {ps : List Project} {j : Nat} (hj : j < ps.length) :
    tailSum ps j = (durAt ps j).toNat + tailSum ps (j + 1) := by
  unfold tailSum
  rw [List.drop_eq_getElem_cons hj]
  simp only [List.map_cons, List.sum_cons]
  unfold durAt
  rw [List.getElem?_eq_getElem hj]
  rfl

theorem tailSum_nil {ps : List Project} {j : Nat} (hj : ps.length ≤ j) :
    tailSum ps j = 0 := by
  unfold tailSum
  rw [List.drop_eq_nil_of_le hj]
  rfl

theorem runTicks_project (ps : List Project) (j : Nat) (hj : j < ps.length)
    (hpos : PosDurations ps) :
    (j + 1 < ps.length →
      runTicks (durAt ps j).toNat (runState ps (j : Int) (durAt ps j)) =
        some (runState ps ((j : Int) + 1) (durAt ps (j + 1)),
          [Event.alarm, Event.projectChanged])) ∧
    (ps.length = j + 1 →
      runTicks (durAt ps j).toNat (runState ps (j : Int) (durAt ps j)) =
        some (⟨ps, -1, false, false, 0⟩, [Event.alarm, Event.runComplete])) := by
  have hd : 0 < durAt ps j := durAt_pos hpos hj
  have hsplit : (durAt ps j).toNat = ((durAt ps j).toNat - 1) + 1 := by omega
  have hnat : (((j : Int) + 1)).toNat = j + 1 := by omega
  have h1 : durAt ps j - (((durAt ps j).toNat - 1 : Nat) : Int) = 1 := by
    omega
  constructor
  · intro hlt
    have hd2 : durAt ps ((j : Int) + 1).toNat ≠ 0 := by
      rw [hnat]
      have := durAt_pos hpos hlt
      omega
    rw [hsplit, runTicks_add,
      runTicks_countdown ps (j : Int) ((durAt ps j).toNat - 1) (durAt ps j) (by omega)]
    simp only [Option.some_bind]
    rw [h1]
    simp only [runTicks]
    rw [tick_expire_advance ps (j : Int) (by omega) (by omega) hd2]
    simp only [Option.some_bind, Option.map_some']
    rw [hnat]
    rfl
  · intro hlen
    rw [hsplit, runTicks_add,
      runTicks_countdown ps (j : Int) ((durAt ps j).toNat - 1) (durAt ps j) (by omega)]
    simp only [Option.some_bind]
    rw [h1]
    simp only [runTicks]
    rw [tick_expire_finish ps (j : Int) (by omega)]
    rfl

theorem runTicks_full (ps : List Project) (hpos : PosDurations ps) :
    ∀ (m j : Nat), j < ps.length → ps.length - j = m →
      ∃ evs, runTicks (tailSum ps j) (runState ps (j : Int) (durAt ps j)) =
          some (⟨ps, -1, false, false, 0⟩, evs) ∧
        evs.count Event.alarm = ps.length - j ∧
        evs.count Event.runComplete = 1 ∧
        evs.getLast? = some Event.runComplete := by
  intro m
  induction m with
  | zero =>
    intro j hj hm
    omega
  | succ m ih =>
    intro j hj hm
    rw [tailSum_cons hj]
    by_cases hlt : j + 1 < ps.length
    · obtain ⟨evs, hrun, hca, hcr, hlast⟩ := ih (j + 1) hlt (by omega)
      have hcast : ((j : Int) + 1) = ((j + 1 : Nat) : Int) := by push_cast; ring
      refine ⟨[Event.alarm, Event.projectChanged] ++ evs, ?_, ?_, ?_, ?_⟩
      · rw [runTicks_add, (runTicks_project ps j hj hpos).1 hlt]
        simp only [Option.some_bind]
        rw [hcast, hrun]
        simp
      · simp only [List.count_append]
        rw [hca]
        simp
        omega
      · simp only [List.count_append]
        rw [hcr]
        simp
      · rw [List.getLast?_append, hlast]
        rfl
    · have hlen : ps.length = j + 1 := by omega
      refine ⟨[Event.alarm, Event.runComplete], ?_, ?_, ?_, ?_⟩
      · rw [tailSum_nil (by omega), Nat.add_zero]
        exact (runTicks_project ps j hj hpos).2 hlen
      · simp
        omega
      · simp
      · rfl

theorem startOp_run (s : AppState) (i : Nat) (hnr : s.isRunning = false)
    (hlen : i < s.projects.length) (hd : durAt s.projects i ≠ 0) :
    startOp s (i : Int) = some (runState s.projects (i : Int) (durAt s.projects i),
      [Event.projectChanged]) := by
  have hnat : ((i : Int)).toNat = i := by omega
  unfold startOp
  rw [if_neg (by simp [hnr]), if_neg (by omega)]
  unfold startTracking
  rw [if_neg (by omega)]
  obtain ⟨p, hp, hpd⟩ := jsIndex_eq_durAt (l := s.projects) (i := (i : Int))
    (by omega) (by omega)
  rw [hp]
  simp only [Option.map_some', Option.some_bind]
  rw [afterEffect_not ?_]
  · rw [hpd, hnat] at *
    cases s
    rfl
  · unfold expiryCond
    rw [hnat] at hpd
    simp [hpd, hd]

/-- Claim C1: starting a run of a non-empty all-positive-duration
sequence at any in-range index and ticking exactly the sum of the
remaining durations drives the engine back to Idle, with exactly one
alarm per project traversed and exactly one final run-complete
emission. -/
theorem claim_C1 (ps : List Project) (i : Nat) (s : AppState)
    (hps : s.projects = ps) (hnr : s.isRunning = false) (hN : 1 ≤ ps.length)
    (hi : i < ps.length) (hpos : PosDurations ps) :
    ∃ (s1 : AppState) (evs : List Event),
      startOp s (i : Int) = some (s1, [Event.projectChanged]) ∧
      runTicks (tailSum ps i) s1 = some (⟨ps, -1, false, false, 0⟩, evs) ∧
      evs.count Event.alarm = ps.length - i ∧
      evs.count Event.runComplete = 1 ∧
      evs.getLast? = some Event.runComplete := by
  subst hps
  have hd := durAt_pos hpos hi
  obtain ⟨evs, hrun, h1, h2, h3⟩ :=
    runTicks_full s.projects hpos (s.projects.length - i) i hi rfl
  exact ⟨runState s.projects (i : Int) (durAt s.projects i), evs,
    startOp_run s i hnr hi (by omega), hrun, h1, h2, h3⟩

/-- Witness for C1: a concrete two-project run started at index 0. -/
theorem claim_C1_witness :
    ∃ (s1 : AppState) (evs : List Event),
      startOp (⟨[⟨"a", "Draft", 2⟩, ⟨"b", "Review", 1⟩], -1, false, false, 0⟩ : AppState)
          ((0 : Nat) : Int) = some (s1, [Event.projectChanged]) ∧
      runTicks (tailSum [⟨"a", "Draft", 2⟩, ⟨"b", "Review", 1⟩] 0) s1 =
        some (⟨[⟨"a", "Draft", 2⟩, ⟨"b", "Review", 1⟩], -1, false, false, 0⟩, evs) ∧
      evs.count Event.alarm = ([⟨"a", "Draft", 2⟩, ⟨"b", "Review", 1⟩] : List Project).length - 0 ∧
      evs.count Event.runComplete = 1 ∧
      evs.getLast? = some Event.runComplete :=
  claim_C1 [⟨"a", "Draft", 2⟩, ⟨"b", "Review", 1⟩] 0
    ⟨[⟨"a", "Draft", 2⟩, ⟨"b", "Review", 1⟩], -1, false, false, 0⟩ rfl rfl
    (by decide) (by decide) (by unfold PosDurations; decide)

end TimeTracker
